import Mathlib

/-
Verification of the data-migration scheduler (src/scheduler.py).

The demand graph is a networkx MultiGraph whose nodes are Disk or Alias
objects (from disk.py, which is not among the sources; the Disk/Alias data
model is modelled from the spec where it is needed): a Disk carries a
capacity cv and a current availability avail, an Alias is a distinct graph
identity forwarding all capacity operations to its ultimate backing Disk
(resolved transitively through the attribute org).

Edges of a multigraph are modelled as a multiset of ordered pairs, one
orientation stored per edge exactly as networkx reports them; has_edge and
remove_edge are orientation insensitive.  Availability is integer valued
(Python ints can go below zero), keyed by the backing device id.
-/

/-- Graph nodes.  Modelled from the spec: disk.py is missing from the
sources; a node is either an original Disk (identified by its device id) or
an Alias of another node, with a stamp making distinct Alias objects
distinct graph identities even when they resolve to the same Disk. -/
inductive GNode
  | disk : ℕ → GNode
  | al : ℕ → GNode → GNode
deriving DecidableEq

/-- Ultimate backing device of a node (the attribute org of disk.py,
resolved transitively; modelled from the spec).  A Disk is its own org. -/
def GNode.org : GNode → ℕ
  | disk d => d
  | al _ p => p.org

/-- An edge as reported by networkx: an ordered pair, one orientation
stored per parallel edge. -/
abbrev GEdge := GNode × GNode

/-- Multiplicity of the undirected edge between u and v in an edge
multiset: parallel copies stored under either orientation all count. -/
def edgeCountM (E : Multiset GEdge) (u v : GNode) : ℕ :=
  E.countP (fun p => p = (u, v) ∨ p = (v, u))

/-- graph.has_edge(u, v) on a MultiGraph. -/
def hasEdgeM (E : Multiset GEdge) (u v : GNode) : Prop :=
  0 < edgeCountM E u v

instance (E : Multiset GEdge) (u v : GNode) : Decidable (hasEdgeM E u v) :=
  Nat.decLt 0 (edgeCountM E u v)

/-- graph.remove_edge(u, v) on a MultiGraph: drop one parallel copy,
whichever orientation is stored (the code only calls it when the edge is
present). -/
def removeEdgeM (E : Multiset GEdge) (u v : GNode) : Multiset GEdge :=
  if (u, v) ∈ E then E.erase (u, v) else E.erase (v, u)

/-- Decrement a device-indexed availability map at device d
(Disk.acquire, forwarded through org; modelled from the spec). -/
def decr (f : ℕ → ℤ) (d : ℕ) : ℕ → ℤ :=
  fun x => if x = d then f x - 1 else f x

/-- Increment a device-indexed availability map at device d
(Disk.free, forwarded through org; modelled from the spec). -/
def incr (f : ℕ → ℤ) (d : ℕ) : ℕ → ℤ :=
  fun x => if x = d then f x + 1 else f x

/-- A demand graph together with the shared mutable capacity state that
InOrder.do_work touches: the edge multiset and per-device availability. -/
structure DWGraph where
  edges : Multiset GEdge
  avail : ℕ → ℤ

/-- The mutable state threaded through one commit pass of
InOrder.do_work: current edges, availability, the working list of
endpoints acquired this round, and the transfer records emitted so far
(the print calls). -/
structure DWState where
  edges : Multiset GEdge
  avail : ℕ → ℤ
  working : List GNode
  transfers : List GEdge

/-- One iteration of the loop body of InOrder.do_work (scheduler.py,
lines 53 to 72): if both endpoints have availability and the edge is still
present, acquire the endpoints (one acquire when the endpoints are the same
node), remove the edge, append the endpoints to the working list and emit a
transfer record; otherwise leave the state unchanged. -/
def doWorkStep (s : DWState) (e : GEdge) : DWState :=
  if 0 < s.avail e.1.org ∧ 0 < s.avail e.2.org ∧ hasEdgeM s.edges e.1 e.2 then
    if e.1 ≠ e.2 then
      { edges := removeEdgeM s.edges e.1 e.2
        avail := decr (decr s.avail e.1.org) e.2.org
        working := s.working ++ [e.1, e.2]
        transfers := s.transfers ++ [e] }
    else
      { edges := removeEdgeM s.edges e.1 e.2
        avail := decr s.avail e.1.org
        working := s.working ++ [e.1]
        transfers := s.transfers ++ [e] }
  else s

/-- The full queue pass of InOrder.do_work, before resources are freed. -/
def doWorkPass (g : DWGraph) (q : List GEdge) : DWState :=
  q.foldl doWorkStep { edges := g.edges, avail := g.avail, working := [], transfers := [] }

/-- Free every acquired endpoint (the final loop of InOrder.do_work). -/
def freeAll (f : ℕ → ℤ) (ws : List GNode) : ℕ → ℤ :=
  ws.foldl (fun acc w => incr acc w.org) f

/-- InOrder.do_work (scheduler.py, lines 51 to 76): run the commit pass
over the queue, then free every endpoint that became active.  Returns the
updated graph state and the emitted transfer records. -/
def doWork (g : DWGraph) (q : List GEdge) : DWGraph × List GEdge :=
  let s := doWorkPass g q
  ({ edges := s.edges, avail := freeAll s.avail s.working }, s.transfers)

/-- One commit step as the spec words it (section 4.2): a queued edge
(u, v) still present with availability(u) positive and availability(v)
positive, only u checked when u equals v, is applied: reserve both
endpoints (one reservation when u equals v), remove the edge, mark the
endpoints active, emit a transfer record; otherwise skip the edge. -/
def specCommitStep (s : DWState) (e : GEdge) : DWState :=
  if hasEdgeM s.edges e.1 e.2 ∧ 0 < s.avail e.1.org ∧ (e.1 = e.2 ∨ 0 < s.avail e.2.org) then
    { edges := removeEdgeM s.edges e.1 e.2
      avail := if e.1 = e.2 then decr s.avail e.1.org else decr (decr s.avail e.1.org) e.2.org
      working := s.working ++ (if e.1 = e.2 then [e.1] else [e.1, e.2])
      transfers := s.transfers ++ [e] }
  else s

/-- The commit operation as the spec words it: process queued edges in
queue order, then release every endpoint that became active. -/
def specCommit (g : DWGraph) (q : List GEdge) : DWGraph × List GEdge :=
  let s := q.foldl specCommitStep
    { edges := g.edges, avail := g.avail, working := [], transfers := [] }
  ({ edges := s.edges, avail := freeAll s.avail s.working }, s.transfers)

/-- Number of acquisitions a single commit pass of InOrder.do_work charges
against device d: every entry of the working list records exactly one
acquire forwarded to its backing device. -/
def reservationsOf (g : DWGraph) (q : List GEdge) (d : ℕ) : ℕ :=
  (doWorkPass g q).working.countP (fun n => n.org == d)

/-- The triangle scenario of the spec: devices A, B, C with capacity 2
(availability 2 at round start), demand A-B, B-C, A-C. -/
def triGraph : DWGraph :=
  { edges := {(GNode.disk 0, GNode.disk 1), (GNode.disk 1, GNode.disk 2),
      (GNode.disk 0, GNode.disk 2)}
    avail := fun _ => 2 }

/-- The candidate queue of the triangle scenario, in the order A-B, B-C, A-C. -/
def triQueue : List GEdge :=
  [(GNode.disk 0, GNode.disk 1), (GNode.disk 1, GNode.disk 2),
    (GNode.disk 0, GNode.disk 2)]

/-- The external round controller: repeatedly commit a queue against the
demand graph, concatenating the emitted transfer records (simulator.py,
lines 117 to 127, for any sequence of selection results). -/
def runRounds (g : DWGraph) (qs : List (List GEdge)) : DWGraph × List GEdge :=
  qs.foldl (fun acc q =>
    let r := doWork acc.1 q
    (r.1, acc.2 ++ r.2)) (g, [])

/-- Demand graph of the conservation witness: one edge between disks 0
and 1, both with availability 1. -/
def consWGraph : DWGraph :=
  { edges := {(GNode.disk 0, GNode.disk 1)}, avail := fun _ => 1 }

/-- Queue sequence of the conservation witness: one round proposing the
single edge. -/
def consWQs : List (List GEdge) := [[(GNode.disk 0, GNode.disk 1)]]

/-
Bipartite preprocessing acts on the demand graph whose nodes are the
original Disks; nodes are modelled by their device ids, capacities by a
map from device id, exactly the state Bipartite.gen_edges reads and
mutates before building its flow network.
-/

/-- A demand graph as Bipartite's preprocessing sees it: node list in
networkx insertion order, per-device capacity, and the edge multiset. -/
structure NGraph where
  nodes : List ℕ
  cv : ℕ → ℕ
  edges : Multiset (ℕ × ℕ)

/-- Contribution of one stored edge to the degree of d; a self loop
contributes two, as networkx MultiGraph degrees do. -/
def contribN (d : ℕ) (p : ℕ × ℕ) : ℕ :=
  (if p.1 = d then 1 else 0) + (if p.2 = d then 1 else 0)

/-- graph.degree(d) on a MultiGraph. -/
def degreeN (E : Multiset (ℕ × ℕ)) (d : ℕ) : ℕ :=
  (E.map (contribN d)).sum

/-- Exact ceiling of a/b: the value math.ceil returns on the float
division the code performs (for b positive). -/
def ceilNat (a b : ℕ) : ℕ := (a + b - 1) / b

/-- ceil(degree(d)/cv(d)) for one device on the current snapshot. -/
def wOf (g : NGraph) (d : ℕ) : ℕ := ceilNat (degreeN g.edges d) (g.cv d)

/-- Scheduler.max_d (scheduler.py, lines 24 to 29): the normalized max
degree, Python max over the per-device ceilings (nodes assumed nonempty,
as Python max requires). -/
def maxD (g : NGraph) : ℕ := (g.nodes.map (wOf g)).foldr max 0

/-- The padding target of Bipartite.normalize for capacity c:
delta_prime*cv - 1, computed over ℤ exactly as the Python expression. -/
def tgtOf (D c : ℕ) : ℤ := (D : ℤ) * (c : ℤ) - 1

/-- Fuel-indexed unfolding of the padding while loop: while degree < t,
add one self loop, raising the degree by two. -/
def padGo : ℕ → ℕ → ℤ → ℕ
  | 0, _, _ => 0
  | fuel + 1, deg, t => if (deg : ℤ) < t then padGo fuel (deg + 2) t + 1 else 0

/-- Number of self loops the while loop of Bipartite.normalize adds to a
device of current degree deg and target t; the fuel (t − deg).toNat always
dominates the iteration count since each iteration closes the gap by two. -/
def padCount (deg : ℕ) (t : ℤ) : ℕ := padGo (t - (deg : ℤ)).toNat deg t

/-- Self loops added to device d (its padding depends only on its own
degree: self loops on other devices never change it). -/
def padFor (g : NGraph) (D d : ℕ) : ℕ :=
  padCount (degreeN g.edges d) (tgtOf D (g.cv d))

/-- Degree of d right after its padding loop finishes. -/
def degPadded (g : NGraph) (D d : ℕ) : ℕ :=
  degreeN g.edges d + 2 * padFor g D d

/-- All self loops Bipartite.normalize adds (scheduler.py, lines 235 to 237). -/
def loopsAdded (g : NGraph) (D : ℕ) : Multiset (ℕ × ℕ) :=
  (g.nodes.map (fun d => Multiset.replicate (padFor g D d) (d, d))).sum

/-- Devices landing exactly on delta_prime*cv - 1 (scheduler.py, lines 239
to 241), collected in node order. -/
def sparesOf (g : NGraph) (D : ℕ) : List ℕ :=
  g.nodes.filter (fun d => decide ((degPadded g D d : ℤ) = tgtOf D (g.cv d)))

/-- Pair spares two at a time (scheduler.py, lines 244 to 248); a leftover
lone spare would make new_edge[1] raise IndexError, modelled as none. -/
def pairUp : List ℕ → Option (List (ℕ × ℕ))
  | [] => some []
  | [_] => none
  | a :: b :: rest => (pairUp rest).map (fun ps => (a, b) :: ps)

/-- Bipartite.normalize (scheduler.py, lines 230 to 248): compute the
normalized max degree, pad every device with self loops while its degree
is below delta_prime*cv - 1, record the devices landing exactly there as
spares, and join the spares pairwise with connecting edges. -/
def normalizeG (g : NGraph) : Option NGraph :=
  (pairUp (sparesOf g (maxD g))).map (fun ps =>
    { g with edges := g.edges + loopsAdded g (maxD g) + (↑ps : Multiset (ℕ × ℕ)) })

/-- Parity relaxation of one capacity (scheduler.py, lines 173 to 176):
an odd capacity is decremented. -/
def relaxCv (c : ℕ) : ℕ := if c % 2 = 1 then c - 1 else c

/-- The demand graph after Bipartite's parity relaxation pass. -/
def relaxG (g : NGraph) : NGraph :=
  { g with cv := fun d => relaxCv (g.cv d) }

/-- Scheduler.max_d with its failure modes explicit: Python max raises on
an empty sequence, and ceil(degree/0) raises ZeroDivisionError when some
capacity is zero. -/
def maxDOpt (g : NGraph) : Option ℕ :=
  if g.nodes = [] then none
  else if g.nodes.any (fun d => g.cv d == 0) then none
  else some (maxD g)

/-- The normalized-max-degree computation inside Bipartite's first
gen_edges call: capacities are relaxed first, then max_d runs inside
normalize. -/
def bipartiteFirstMaxD (g : NGraph) : Option ℕ := maxDOpt (relaxG g)

/-- Remove every edge whose two endpoints resolve to the same device
(scheduler.py, lines 185 to 191; demand-graph nodes are the original
Disks, so the org comparison is comparison of device ids). -/
def removeSelfLoopEdges (E : Multiset (ℕ × ℕ)) : Multiset (ℕ × ℕ) :=
  E.filter (fun p => p.1 ≠ p.2)

/-- Every demand-graph mutation Bipartite.gen_edges performs on its first
call (scheduler.py, lines 168 to 191): relax capacities, normalize by
self-loop padding plus spare pairing, then delete all self loops from the
demand graph.  Building the flow network and computing the flow touch only
strategy-internal state, never the demand graph. -/
def bipartiteSelectEffect (g : NGraph) : Option NGraph :=
  (normalizeG (relaxG g)).map (fun h => { h with edges := removeSelfLoopEdges h.edges })

/-- Undirected multiplicity in a device-id edge multiset. -/
def edgeCountN (E : Multiset (ℕ × ℕ)) (u v : ℕ) : ℕ :=
  E.countP (fun p => p = (u, v) ∨ p = (v, u))

/-- Adjacency of the undirected multigraph. -/
def AdjN (E : Multiset (ℕ × ℕ)) (u v : ℕ) : Prop :=
  (u, v) ∈ E ∨ (v, u) ∈ E

/-- Connectivity of the multigraph on a node list. -/
def ConnectedN (nodes : List ℕ) (E : Multiset (ℕ × ℕ)) : Prop :=
  ∀ u ∈ nodes, ∀ v ∈ nodes, Relation.ReflTransGen (AdjN E) u v

/-- A small graph accepted by Bipartite: devices 0 and 1 with capacity 2,
one demand edge between them. -/
def gNorm : NGraph := { nodes := [0, 1], cv := fun _ => 2, edges := {(0, 1)} }

/-- The C3 counterexample graph: devices 0 and 1, capacity 2 each, demand
consisting of one self loop at device 0 and one edge between 0 and 1.
It is connected, all capacities are even, and after normalization both
devices have degree 4, so Bipartite accepts it (an Eulerian circuit
exists whether the circuit is taken before or after loop removal). -/
def gBip : NGraph :=
  { nodes := [0, 1], cv := fun _ => 2, edges := {(0, 0), (0, 1)} }

/-- The queue Bipartite.gen_edges returns each round (scheduler.py,
line 228): from the extracted flow edges, keep those whose endpoints
resolve to distinct backing devices and return the backing device pairs
(the flow extraction itself is abstracted as an arbitrary edge list). -/
def bipartiteQueue (flow : List GEdge) : List (ℕ × ℕ) :=
  (flow.filter (fun e => decide (e.1.org ≠ e.2.org))).map (fun e => (e.1.org, e.2.org))

/-- graph.edges(d): the incident edges of d reported with d first,
neighbors in edge-insertion order, one entry per incident edge, self
loops once. -/
def edgesOfNode (L : List GEdge) (d : GNode) : List GEdge :=
  L.filterMap (fun p =>
    if p.1 = d then some (d, p.2)
    else if p.2 = d then some (d, p.1) else none)

/-- The per-node loop of FlattenAndColor.greedy_color (scheduler.py,
lines 151 to 158): the color counter restarts at zero for every node;
each incident tuple not yet keyed in e_colors is assigned the counter
value and the counter advances; existing keys are skipped.  The
accumulator is the insertion-ordered key/value list of the e_colors dict. -/
def gcNode : List (GEdge × ℕ) → ℕ → List GEdge → List (GEdge × ℕ)
  | ec, _, [] => ec
  | ec, color, e :: rest =>
    if ec.any (fun kv => kv.1 == e) then gcNode ec color rest
    else gcNode (ec ++ [(e, color)]) (color + 1) rest

/-- FlattenAndColor.greedy_color (scheduler.py, lines 148 to 160): fold
the per-node loop over the nodes; the dead variables adj and d_colors of
the source never influence the result. -/
def greedyColor (nodes : List GNode) (L : List GEdge) : List (GEdge × ℕ) :=
  nodes.foldl (fun ec d => gcNode ec 0 (edgesOfNode L d)) []

/-- The triangle graph on three nodes, one edge between each pair. -/
def triK3nodes : List GNode := [GNode.disk 0, GNode.disk 1, GNode.disk 2]

/-- Edges of the triangle in insertion order. -/
def triK3edges : List GEdge :=
  [(GNode.disk 0, GNode.disk 1), (GNode.disk 0, GNode.disk 2),
    (GNode.disk 1, GNode.disk 2)]

/-- The demand graph as EdgeRanking reads it: per-device capacity and the
reported edge list of the snapshot. -/
structure RGraph where
  cv : ℕ → ℕ
  edgeList : List (ℕ × ℕ)

/-- Degree over a reported edge list (self loops count twice). -/
def degreeL (L : List (ℕ × ℕ)) (d : ℕ) : ℕ := (L.map (contribN d)).sum

/-- EdgeRanking.dv_cv (scheduler.py, lines 89 to 93):
ceil(degree(d)/cv(d)) on the current snapshot. -/
def dvCvR (g : RGraph) (d : ℕ) : ℕ := ceilNat (degreeL g.edgeList d) (g.cv d)

/-- EdgeRanking.gen_edges (scheduler.py, lines 80 to 87): weight every
edge by the sum of its endpoints' dv_cv values, sort ascending by that
score (Python sorted: stable mergesort on the key), and return the edges. -/
def genEdgesER (g : RGraph) : List (ℕ × ℕ) :=
  ((g.edgeList.map (fun e => (dvCvR g e.1 + dvCvR g e.2, e))).mergeSort
      (fun x y => decide (x.1 ≤ y.1))).map Prod.snd

/-- The C9 witness graph: three devices of capacity 1 on a path. -/
def gER : RGraph := { cv := fun _ => 1, edgeList := [(0, 1), (1, 2)] }

/-- First-occurrence deduplication: the key order of Counter(graph.edges()). -/
def firstDedupGo (seen : List GEdge) : List GEdge → List GEdge
  | [] => []
  | e :: rest =>
    if e ∈ seen then firstDedupGo seen rest
    else e :: firstDedupGo (e :: seen) rest

/-- Counter(graph.edges()) (scheduler.py, line 33): the distinct reported
edge tuples in first-occurrence order, each with its multiplicity. -/
def occList (L : List GEdge) : List (GEdge × ℕ) :=
  (firstDedupGo [] L).map (fun e => (e, L.count e))

/-- The while loop of Scheduler.mg_split for one edge class of
multiplicity n (scheduler.py, lines 36 to 44): n − 1 iterations, each
adding one edge from a fresh Alias of the first endpoint to the second
endpoint and removing one parallel copy; c numbers the fresh Alias objects. -/
def splitClass (c : ℕ) (u v : GNode) (n : ℕ) : List GEdge :=
  (List.range (n - 1)).map (fun i => (GNode.al (c + i) u, v))

/-- Scheduler.mg_split over the Counter classes: every class keeps one
stored copy plus its fan of fresh-alias edges; the counter keeps alias
stamps globally fresh across classes. -/
def mgSplitGo : ℕ → List (GEdge × ℕ) → Multiset GEdge
  | _, [] => 0
  | c, ((u, v), n) :: rest =>
    ((u, v) ::ₘ (↑(splitClass c u v n) : Multiset GEdge))
      + mgSplitGo (c + (n - 1)) rest

/-- Scheduler.mg_split (scheduler.py, lines 31 to 44) applied to the
reported edge list of a multigraph. -/
def mgSplit (L : List GEdge) : Multiset GEdge := mgSplitGo 0 (occList L)

/-- Recognize a fan edge of the class (u, v): a freshly made Alias of u
paired with v. -/
def isFanEdge (u v : GNode) (p : GEdge) : Bool :=
  match p with
  | (GNode.al _ b, y) => b == u && y == v
  | _ => false

/-- Two parallel edges between disks 0 and 1, the C7 counterexample input. -/
def LPar : List GEdge :=
  [(GNode.disk 0, GNode.disk 1), (GNode.disk 0, GNode.disk 1)]

/-- The C7 witness list: a pair with multiplicity two plus a simple edge. -/
def LW7 : List GEdge :=
  [(GNode.disk 0, GNode.disk 1), (GNode.disk 0, GNode.disk 1),
    (GNode.disk 1, GNode.disk 2)]

/-- The admission test of the code (availability of both endpoints, then
presence) agrees with the admission test as the spec words it (presence,
availability of u, and of v unless u equals v). -/
theorem step_cond_iff (s : DWState) (e : GEdge) :
    (0 < s.avail e.1.org ∧ 0 < s.avail e.2.org ∧ hasEdgeM s.edges e.1 e.2)
      ↔ (hasEdgeM s.edges e.1 e.2 ∧ 0 < s.avail e.1.org ∧
          (e.1 = e.2 ∨ 0 < s.avail e.2.org)) := by
  constructor
  · rintro ⟨ha, hb, hE⟩
    exact ⟨hE, ha, Or.inr hb⟩
  · rintro ⟨hE, ha, hb⟩
    refine ⟨ha, ?_, hE⟩
    rcases hb with hb | hb
    · have horg : e.1.org = e.2.org := by rw [hb]
      exact horg ▸ ha
    · exact hb

theorem doWorkStep_eq_specCommitStep (s : DWState) (e : GEdge) :
    doWorkStep s e = specCommitStep s e := by
  unfold doWorkStep specCommitStep
  rw [if_congr (step_cond_iff s e) rfl rfl]
  by_cases hB : hasEdgeM s.edges e.1 e.2 ∧ 0 < s.avail e.1.org ∧
      (e.1 = e.2 ∨ 0 < s.avail e.2.org)
  · rw [if_pos hB, if_pos hB]
    by_cases h12 : e.1 = e.2 <;> simp [h12]
  · rw [if_neg hB, if_neg hB]

theorem incr_decr_comm (f : ℕ → ℤ) (a b : ℕ) :
    incr (decr f a) b = decr (incr f b) a := by
  funext x
  simp only [incr, decr]
  by_cases hb : x = b <;> by_cases ha : x = a <;> simp [ha, hb] <;> omega

theorem freeAll_decr (f : ℕ → ℤ) (d : ℕ) (ws : List GNode) :
    freeAll (decr f d) ws = decr (freeAll f ws) d := by
  induction ws generalizing f with
  | nil => rfl
  | cons w ws ih =>
    simp only [freeAll, List.foldl_cons] at *
    rw [incr_decr_comm, ih]

theorem incr_decr_cancel (f : ℕ → ℤ) (d : ℕ) : incr (decr f d) d = f := by
  funext x
  simp only [incr, decr]
  by_cases h : x = d <;> simp [h]

theorem freeAll_append (f : ℕ → ℤ) (ws₁ ws₂ : List GNode) :
    freeAll f (ws₁ ++ ws₂) = freeAll (freeAll f ws₁) ws₂ := by
  simp [freeAll, List.foldl_append]

theorem decr_decr_incr_incr (G : ℕ → ℤ) (a b : ℕ) :
    decr (decr (incr (incr G a) b) a) b = G := by
  funext x
  simp only [incr, decr]
  split_ifs <;> ring

theorem decr_incr_cancel (G : ℕ → ℤ) (a : ℕ) : decr (incr G a) a = G := by
  funext x
  simp only [incr, decr]
  split_ifs <;> ring

/-- Through the whole pass, the pending releases recorded in the working
list exactly undo the acquisitions performed so far. -/
theorem freeAll_foldl_invariant (q : List GEdge) (s : DWState) :
    freeAll (q.foldl doWorkStep s).avail (q.foldl doWorkStep s).working
      = freeAll s.avail s.working := by
  induction q generalizing s with
  | nil => rfl
  | cons e q ih =>
    rw [List.foldl_cons, ih (doWorkStep s e)]
    unfold doWorkStep
    by_cases hc : 0 < s.avail e.1.org ∧ 0 < s.avail e.2.org ∧ hasEdgeM s.edges e.1 e.2
    · rw [if_pos hc]
      by_cases h12 : e.1 ≠ e.2
      · rw [if_pos h12]
        show freeAll (decr (decr s.avail e.1.org) e.2.org) (s.working ++ [e.1, e.2])
          = freeAll s.avail s.working
        rw [freeAll_decr, freeAll_decr, freeAll_append]
        show decr (decr (incr (incr (freeAll s.avail s.working) e.1.org) e.2.org)
          e.1.org) e.2.org = freeAll s.avail s.working
        exact decr_decr_incr_incr (freeAll s.avail s.working) e.1.org e.2.org
      · rw [if_neg h12]
        show freeAll (decr s.avail e.1.org) (s.working ++ [e.1])
          = freeAll s.avail s.working
        rw [freeAll_decr, freeAll_append]
        show decr (incr (freeAll s.avail s.working) e.1.org) e.1.org
          = freeAll s.avail s.working
        exact decr_incr_cancel (freeAll s.avail s.working) e.1.org
    · rw [if_neg hc]

/-- C2.  InOrder.do_work is exactly the commit operation the spec
describes: queued edges are processed in queue order, an edge is applied
precisely when it is still present and both endpoints have availability
(only the one endpoint when the endpoints coincide), in which case the
endpoints are reserved (one reservation on a self pair), the edge is
removed and a transfer record is emitted, while a failing edge is skipped
leaving graph and availability untouched; and after the full pass every
endpoint that became active is released, restoring every availability to
its round-start value. -/
theorem C2_do_work_commit_semantics (g : DWGraph) (q : List GEdge) :
    doWork g q = specCommit g q ∧ (doWork g q).1.avail = g.avail := by
  constructor
  · have hstep : doWorkStep = specCommitStep := by
      funext s e
      exact doWorkStep_eq_specCommitStep s e
    unfold doWork doWorkPass specCommit
    rw [hstep]
  · show freeAll (doWorkPass g q).avail (doWorkPass g q).working = g.avail
    unfold doWorkPass
    rw [freeAll_foldl_invariant]
    rfl

/-- C4 counterexample: on the spec's own triangle scenario (all capacities 2,
queue A-B, B-C, A-C) the commit pass reserves device A twice within the one
round, so a single pass does not cap each device at one reservation: the
second edge touching an already reserved device passes the availability
check whenever availability is still positive. -/
theorem C4_counterexample_two_reservations :
    1 < reservationsOf triGraph triQueue 0 := by decide

theorem countP_append_pair (w : List GNode) (x y : GNode) (d : ℕ) :
    (w ++ [x, y]).countP (fun n => n.org == d)
      = w.countP (fun n => n.org == d)
        + ((if x.org = d then 1 else 0) + (if y.org = d then 1 else 0)) := by
  simp only [List.countP_append, List.countP_cons, List.countP_nil, beq_iff_eq]
  by_cases hx : x.org = d <;> by_cases hy : y.org = d <;> simp [hx, hy]

theorem countP_append_single (w : List GNode) (x : GNode) (d : ℕ) :
    (w ++ [x]).countP (fun n => n.org == d)
      = w.countP (fun n => n.org == d) + (if x.org = d then 1 else 0) := by
  simp only [List.countP_append, List.countP_cons, List.countP_nil, beq_iff_eq]
  by_cases hx : x.org = d <;> simp [hx]

theorem decr_apply (f : ℕ → ℤ) (a x : ℕ) :
    decr f a x = f x - (if x = a then 1 else 0) := by
  simp only [decr]
  by_cases h : x = a <;> simp [h]

theorem doWorkStep_avail_count (d : ℕ) (a0 : ℤ) (s : DWState) (e : GEdge)
    (he : e.1.org = e.2.org → e.1 = e.2)
    (h1 : (s.working.countP (fun n => n.org == d) : ℤ) = a0 - s.avail d)
    (h2 : min a0 0 ≤ s.avail d) :
    ((doWorkStep s e).working.countP (fun n => n.org == d) : ℤ)
        = a0 - (doWorkStep s e).avail d
      ∧ min a0 0 ≤ (doWorkStep s e).avail d := by
  unfold doWorkStep
  by_cases hc : 0 < s.avail e.1.org ∧ 0 < s.avail e.2.org ∧ hasEdgeM s.edges e.1 e.2
  · rw [if_pos hc]
    by_cases h12 : e.1 ≠ e.2
    · rw [if_pos h12]
      have horg : e.1.org ≠ e.2.org := fun h => h12 (he h)
      have hw := countP_append_pair s.working e.1 e.2 d
      have ha : decr (decr s.avail e.1.org) e.2.org d
          = s.avail d - (if e.1.org = d then 1 else 0)
            - (if e.2.org = d then 1 else 0) := by
        rw [decr_apply, decr_apply]
        by_cases hd1 : d = e.1.org <;> by_cases hd2 : d = e.2.org <;>
          simp [hd1, hd2] <;> omega
      show ((s.working ++ [e.1, e.2]).countP (fun n => n.org == d) : ℤ)
          = a0 - decr (decr s.avail e.1.org) e.2.org d
        ∧ min a0 0 ≤ decr (decr s.avail e.1.org) e.2.org d
      rw [hw, ha]
      have hc1 := hc.1
      have hc2 := hc.2.1
      by_cases hd1 : e.1.org = d
      · subst hd1
        have hd2 : ¬ (e.2.org = e.1.org) := fun h => horg h.symm
        simp only [if_pos rfl, if_neg hd2]
        constructor <;> push_cast <;> omega
      · by_cases hd2 : e.2.org = d
        · subst hd2
          simp only [if_pos rfl, if_neg hd1]
          constructor <;> push_cast <;> omega
        · simp only [if_neg hd1, if_neg hd2]
          constructor <;> push_cast <;> omega
    · rw [if_neg h12]
      have hw := countP_append_single s.working e.1 d
      have ha : decr s.avail e.1.org d
          = s.avail d - (if e.1.org = d then 1 else 0) := by
        rw [decr_apply]
        by_cases hd1 : d = e.1.org
        · simp [hd1]
        · have hd1s : ¬ (e.1.org = d) := fun h => hd1 h.symm
          simp [hd1, hd1s]
      show ((s.working ++ [e.1]).countP (fun n => n.org == d) : ℤ)
          = a0 - decr s.avail e.1.org d
        ∧ min a0 0 ≤ decr s.avail e.1.org d
      rw [hw, ha]
      have hc1 := hc.1
      by_cases hd1 : e.1.org = d
      · subst hd1
        simp only [if_pos rfl]
        constructor <;> push_cast <;> omega
      · simp only [if_neg hd1]
        constructor <;> push_cast <;> omega
  · rw [if_neg hc]
    exact ⟨h1, h2⟩

theorem doWorkPass_avail_count (d : ℕ) (a0 : ℤ) (q : List GEdge) (s : DWState)
    (hq : ∀ e ∈ q, GNode.org (Prod.fst e) = GNode.org (Prod.snd e) →
      Prod.fst e = Prod.snd e)
    (h1 : (s.working.countP (fun n => n.org == d) : ℤ) = a0 - s.avail d)
    (h2 : min a0 0 ≤ s.avail d) :
    ((q.foldl doWorkStep s).working.countP (fun n => n.org == d) : ℤ)
        = a0 - (q.foldl doWorkStep s).avail d
      ∧ min a0 0 ≤ (q.foldl doWorkStep s).avail d := by
  induction q generalizing s with
  | nil => exact ⟨h1, h2⟩
  | cons e q ih =>
    rw [List.foldl_cons]
    have he := hq e (List.mem_cons_self e q)
    have step := doWorkStep_avail_count d a0 s e he h1 h2
    exact ih (doWorkStep s e) (fun x hx => hq x (List.mem_cons_of_mem e hx))
      step.1 step.2

/-- C4 amended: a single commit pass reserves each device at most its
round-start availability many times (not at most once); once a device's
availability is exhausted within the pass, any further queued edge touching
it fails the availability check and is deferred.  The hypothesis states
that the queue never pairs two distinct nodes backed by the same device,
which holds for every queue the simulator builds since demand-graph nodes
are the Disks themselves. -/
theorem C4_amended_reservations_bound (g : DWGraph) (q : List GEdge) (d : ℕ)
    (hq : ∀ e ∈ q, GNode.org (Prod.fst e) = GNode.org (Prod.snd e) →
      Prod.fst e = Prod.snd e) :
    (reservationsOf g q d : ℤ) ≤ max (g.avail d) 0 := by
  have h := doWorkPass_avail_count d (g.avail d) q
    { edges := g.edges, avail := g.avail, working := [], transfers := [] }
    hq (by simp) (by simp)
  unfold reservationsOf doWorkPass
  omega

/-- C4 amended, witnessed on the triangle scenario: device A holds
availability 2 at round start and indeed receives no more than 2
reservations in the single round. -/
theorem C4_amended_witness :
    (∀ e ∈ triQueue, GNode.org (Prod.fst e) = GNode.org (Prod.snd e) →
        Prod.fst e = Prod.snd e)
      ∧ (reservationsOf triGraph triQueue 0 : ℤ) ≤ max (triGraph.avail 0) 0 :=
  ⟨by decide, C4_amended_reservations_bound triGraph triQueue 0 (by decide)⟩

theorem countP_erase_mem (p : GEdge → Prop) [DecidablePred p]
    (E : Multiset GEdge) (a : GEdge) (ha : a ∈ E) :
    E.countP p = (E.erase a).countP p + (if p a then 1 else 0) := by
  conv_lhs => rw [← Multiset.cons_erase ha]
  rw [Multiset.countP_cons]

theorem class_pred_symm (u v : GNode) (a b : GNode) :
    ((a, b) = (u, v) ∨ (a, b) = (v, u)) ↔ ((b, a) = (u, v) ∨ (b, a) = (v, u)) := by
  constructor <;> rintro (h | h) <;>
    simp only [Prod.mk.injEq] at h <;>
    simp [Prod.mk.injEq, h.1, h.2]

theorem edgeCountM_erase (E : Multiset GEdge) (a b u v : GNode)
    (hm : (a, b) ∈ E) :
    edgeCountM E u v
      = edgeCountM (E.erase (a, b)) u v
        + (if ((a, b) = (u, v) ∨ (a, b) = (v, u)) then 1 else 0) :=
  countP_erase_mem (fun p => p = (u, v) ∨ p = (v, u)) E (a, b) hm

theorem edgeCountM_append_single (ts : List GEdge) (a b u v : GNode) :
    edgeCountM (↑(ts ++ [(a, b)])) u v
      = edgeCountM (↑ts) u v
        + (if ((a, b) = (u, v) ∨ (a, b) = (v, u)) then 1 else 0) := by
  unfold edgeCountM
  rw [← Multiset.coe_add, Multiset.countP_add]
  congr 1
  show Multiset.countP _ ((a, b) ::ₘ 0) = _
  rw [Multiset.countP_cons, Multiset.countP_zero]
  simp

/-- Removing a present edge drops the multiplicity of exactly its own
undirected class by one, matched by the transfer record appended for it. -/
theorem removeEdge_transfer_count (E : Multiset GEdge) (ts : List GEdge)
    (e : GEdge) (u v : GNode) (hE : hasEdgeM E e.1 e.2) :
    edgeCountM (removeEdgeM E e.1 e.2) u v + edgeCountM (↑(ts ++ [e])) u v
      = edgeCountM E u v + edgeCountM (↑ts) u v := by
  obtain ⟨a, b⟩ := e
  dsimp only at hE ⊢
  rw [edgeCountM_append_single]
  unfold removeEdgeM
  by_cases hm : (a, b) ∈ E
  · rw [if_pos hm]
    have hc := edgeCountM_erase E a b u v hm
    omega
  · rw [if_neg hm]
    have hm2 : (b, a) ∈ E := by
      have hpos : 0 < Multiset.countP (fun p => p = (a, b) ∨ p = (b, a)) E := hE
      obtain ⟨x, hxE, hxp⟩ := Multiset.countP_pos.mp hpos
      rcases hxp with h | h
      · exact absurd (h ▸ hxE) hm
      · exact h ▸ hxE
    have hc := edgeCountM_erase E b a u v hm2
    by_cases hcl : (a, b) = (u, v) ∨ (a, b) = (v, u)
    · rw [if_pos ((class_pred_symm u v a b).mp hcl)] at hc
      rw [if_pos hcl]
      omega
    · rw [if_neg (fun h => hcl ((class_pred_symm u v a b).mpr h))] at hc
      rw [if_neg hcl]
      omega

theorem doWorkStep_edgeCount (s : DWState) (e : GEdge) (u v : GNode) :
    edgeCountM (doWorkStep s e).edges u v + edgeCountM (↑(doWorkStep s e).transfers) u v
      = edgeCountM s.edges u v + edgeCountM (↑s.transfers) u v := by
  unfold doWorkStep
  by_cases hc : 0 < s.avail e.1.org ∧ 0 < s.avail e.2.org ∧ hasEdgeM s.edges e.1 e.2
  · rw [if_pos hc]
    by_cases h12 : e.1 ≠ e.2
    · rw [if_pos h12]
      exact removeEdge_transfer_count s.edges s.transfers e u v hc.2.2
    · rw [if_neg h12]
      exact removeEdge_transfer_count s.edges s.transfers e u v hc.2.2
  · rw [if_neg hc]

theorem doWorkPass_foldl_edgeCount (q : List GEdge) (s : DWState) (u v : GNode) :
    edgeCountM (q.foldl doWorkStep s).edges u v
        + edgeCountM (↑(q.foldl doWorkStep s).transfers) u v
      = edgeCountM s.edges u v + edgeCountM (↑s.transfers) u v := by
  induction q generalizing s with
  | nil => rfl
  | cons e q ih =>
    rw [List.foldl_cons, ih (doWorkStep s e), doWorkStep_edgeCount]

/-- One round of InOrder.do_work moves edge multiplicity from the demand
graph to the transfer records and nowhere else. -/
theorem doWork_edgeCount (g : DWGraph) (q : List GEdge) (u v : GNode) :
    edgeCountM (doWork g q).1.edges u v + edgeCountM (↑(doWork g q).2) u v
      = edgeCountM g.edges u v := by
  have h := doWorkPass_foldl_edgeCount q
    { edges := g.edges, avail := g.avail, working := [], transfers := [] } u v
  show edgeCountM (doWorkPass g q).edges u v
      + edgeCountM (↑(doWorkPass g q).transfers) u v = edgeCountM g.edges u v
  unfold doWorkPass
  simpa using h

theorem runRounds_foldl_edgeCount (qs : List (List GEdge))
    (p : DWGraph × List GEdge) (u v : GNode) :
    edgeCountM (qs.foldl (fun acc q =>
          let r := doWork acc.1 q
          (r.1, acc.2 ++ r.2)) p).1.edges u v
        + edgeCountM (↑(qs.foldl (fun acc q =>
          let r := doWork acc.1 q
          (r.1, acc.2 ++ r.2)) p).2) u v
      = edgeCountM p.1.edges u v + edgeCountM (↑p.2) u v := by
  induction qs generalizing p with
  | nil => rfl
  | cons q qs ih =>
    rw [List.foldl_cons, ih]
    show edgeCountM (doWork p.1 q).1.edges u v
        + edgeCountM (↑(p.2 ++ (doWork p.1 q).2)) u v
      = edgeCountM p.1.edges u v + edgeCountM (↑p.2) u v
    have happ : edgeCountM (↑(p.2 ++ (doWork p.1 q).2)) u v
        = edgeCountM (↑p.2) u v + edgeCountM (↑(doWork p.1 q).2) u v := by
      unfold edgeCountM
      rw [← Multiset.coe_add, Multiset.countP_add]
    rw [happ]
    have := doWork_edgeCount p.1 q u v
    omega

/-- C3 amended: for every strategy that selects candidate queues without
itself mutating the demand graph and commits through InOrder.do_work
(InOrder, EdgeRanking, FlattenAndColor), every edge removal happens at the
commit that records it, so a run whose rounds drive the demand graph to
empty commits each demand edge exactly once: the multiset of committed
transfers matches the original demand multiset class by class.  Greedy
remains excepted by its documented early termination, and Bipartite must
additionally be excepted: its first selection call itself rewrites the
demand graph (see the C3 counterexample below). -/
theorem C3_amended_conservation (g : DWGraph) (qs : List (List GEdge))
    (hdone : (runRounds g qs).1.edges = 0) (u v : GNode) :
    edgeCountM g.edges u v = edgeCountM (↑(runRounds g qs).2) u v := by
  have h := runRounds_foldl_edgeCount qs (g, []) u v
  dsimp only at h
  unfold runRounds at hdone
  rw [hdone] at h
  have h0 : edgeCountM (0 : Multiset GEdge) u v = 0 := rfl
  have hnil : edgeCountM (↑([] : List GEdge)) u v = 0 := rfl
  rw [h0, hnil] at h
  unfold runRounds
  dsimp only
  omega

/-- C3 amended, witnessed: the one-round run empties the graph and the
committed transfers carry the one demand edge exactly once. -/
theorem C3_amended_witness :
    (runRounds consWGraph consWQs).1.edges = 0
      ∧ edgeCountM consWGraph.edges (GNode.disk 0) (GNode.disk 1)
        = edgeCountM (↑(runRounds consWGraph consWQs).2) (GNode.disk 0) (GNode.disk 1) :=
  ⟨by decide, C3_amended_conservation consWGraph consWQs (by decide) (GNode.disk 0) (GNode.disk 1)⟩

theorem le_foldr_max (l : List ℕ) (a : ℕ) (ha : a ∈ l) : a ≤ l.foldr max 0 := by
  induction l with
  | nil => cases ha
  | cons x l ih =>
    rcases List.mem_cons.mp ha with h | h
    · subst h
      exact le_max_left _ _
    · exact le_trans (ih h) (le_max_right _ _)

theorem ceilNat_le_iff (a b D : ℕ) (hb : 0 < b) : ceilNat a b ≤ D ↔ a ≤ D * b := by
  unfold ceilNat
  rw [← Nat.lt_succ_iff, Nat.div_lt_iff_lt_mul hb, Nat.succ_mul]
  omega

theorem degree_le_maxD (g : NGraph) (d : ℕ) (hd : d ∈ g.nodes)
    (hcv : 0 < g.cv d) : degreeN g.edges d ≤ maxD g * g.cv d := by
  have h1 : wOf g d ≤ maxD g := le_foldr_max _ _ (List.mem_map_of_mem (wOf g) hd)
  exact (ceilNat_le_iff _ _ _ hcv).mp h1

theorem tgt_eq (D c : ℕ) : tgtOf D c = ((D * c : ℕ) : ℤ) - 1 := by
  unfold tgtOf
  push_cast
  ring

theorem padGo_ge (fuel : ℕ) : ∀ (deg : ℕ) (t : ℤ), (t - (deg : ℤ)).toNat ≤ fuel →
    t ≤ ((deg + 2 * padGo fuel deg t : ℕ) : ℤ) := by
  induction fuel with
  | zero =>
    intro deg t hf
    simp only [padGo]
    push_cast
    omega
  | succ fuel ih =>
    intro deg t hf
    simp only [padGo]
    by_cases h : (deg : ℤ) < t
    · rw [if_pos h]
      have h2 : (t - ((deg + 2 : ℕ) : ℤ)).toNat ≤ fuel := by
        push_cast
        omega
      have h3 := ih (deg + 2) t h2
      push_cast at h3 ⊢
      omega
    · rw [if_neg h]
      push_cast
      omega

theorem padGo_le (fuel : ℕ) : ∀ (deg : ℕ) (t : ℤ), (deg : ℤ) ≤ t + 1 →
    ((deg + 2 * padGo fuel deg t : ℕ) : ℤ) ≤ t + 1 := by
  induction fuel with
  | zero =>
    intro deg t h
    simp only [padGo]
    push_cast
    omega
  | succ fuel ih =>
    intro deg t h
    simp only [padGo]
    by_cases hlt : (deg : ℤ) < t
    · rw [if_pos hlt]
      have h3 := ih (deg + 2) t (by push_cast; omega)
      push_cast at h3 ⊢
      omega
    · rw [if_neg hlt]
      push_cast
      omega

theorem degreeN_add (A B : Multiset (ℕ × ℕ)) (d : ℕ) :
    degreeN (A + B) d = degreeN A d + degreeN B d := by
  unfold degreeN
  rw [Multiset.map_add, Multiset.sum_add]

theorem degreeN_cons (p : ℕ × ℕ) (E : Multiset (ℕ × ℕ)) (d : ℕ) :
    degreeN (p ::ₘ E) d = contribN d p + degreeN E d := by
  unfold degreeN
  rw [Multiset.map_cons, Multiset.sum_cons]

theorem degreeN_replicate (k : ℕ) (p : ℕ × ℕ) (d : ℕ) :
    degreeN (Multiset.replicate k p) d = k * contribN d p := by
  unfold degreeN
  rw [Multiset.map_replicate, Multiset.sum_replicate, smul_eq_mul]

theorem degreeN_listSum (L : List (Multiset (ℕ × ℕ))) (d : ℕ) :
    degreeN L.sum d = (L.map (fun m => degreeN m d)).sum := by
  induction L with
  | nil => rfl
  | cons m L ih =>
    rw [List.sum_cons, degreeN_add, List.map_cons, List.sum_cons, ih]

theorem sum_map_ite (l : List ℕ) (y : ℕ) (c : ℕ → ℕ) (hl : l.Nodup) :
    (l.map (fun n => if y = n then c n else 0)).sum = if y ∈ l then c y else 0 := by
  induction l with
  | nil => simp
  | cons a l ih =>
    have hnd := List.nodup_cons.mp hl
    rw [List.map_cons, List.sum_cons, ih hnd.2]
    by_cases hy : y = a
    · subst hy
      rw [if_pos rfl, if_neg hnd.1, if_pos (List.mem_cons_self _ _)]
      omega
    · rw [if_neg hy]
      by_cases hm : y ∈ l
      · rw [if_pos hm, if_pos (List.mem_cons_of_mem a hm)]
        omega
      · rw [if_neg hm, if_neg (by simp [hy, hm])]

theorem sum_map_add_split (l : List ℕ) (f h : ℕ → ℕ) :
    (l.map (fun x => f x + h x)).sum = (l.map f).sum + (l.map h).sum := by
  induction l with
  | nil => rfl
  | cons a l ih =>
    rw [List.map_cons, List.sum_cons, List.map_cons, List.sum_cons,
      List.map_cons, List.sum_cons, ih]
    omega

theorem contrib_self (d n : ℕ) : contribN d (n, n) = if d = n then 2 else 0 := by
  unfold contribN
  by_cases h : n = d
  · subst h
    simp
  · rw [if_neg h, if_neg (show ¬ (d = n) from fun hh => h hh.symm)]

theorem degreeN_loopsAdded (g : NGraph) (D d : ℕ) (hnd : g.nodes.Nodup)
    (hd : d ∈ g.nodes) :
    degreeN (loopsAdded g D) d = 2 * padFor g D d := by
  unfold loopsAdded
  rw [degreeN_listSum, List.map_map]
  have hmap : (g.nodes.map ((fun m => degreeN m d) ∘
        fun n => Multiset.replicate (padFor g D n) (n, n)))
      = g.nodes.map (fun n => if d = n then 2 * padFor g D n else 0) := by
    apply List.map_congr_left
    intro n hn
    show degreeN (Multiset.replicate (padFor g D n) (n, n)) d = _
    rw [degreeN_replicate, contrib_self]
    by_cases h : d = n
    · rw [if_pos h, if_pos h]
      ring
    · rw [if_neg h, if_neg h]
      ring
  rw [hmap, sum_map_ite g.nodes d (fun n => 2 * padFor g D n) hnd, if_pos hd]

theorem degPadded_eq (g : NGraph) (D d : ℕ) (hnd : g.nodes.Nodup)
    (hd : d ∈ g.nodes) :
    degreeN (g.edges + loopsAdded g D) d = degPadded g D d := by
  rw [degreeN_add, degreeN_loopsAdded g D d hnd hd]
  rfl

/-- Handshake over a multigraph whose edge endpoints all lie in a
duplicate-free node list: degrees sum to twice the edge count. -/
theorem handshakeN (nodes : List ℕ) (E : Multiset (ℕ × ℕ)) (hnd : nodes.Nodup)
    (hcl : ∀ p ∈ E, p.1 ∈ nodes ∧ p.2 ∈ nodes) :
    (nodes.map (fun d => degreeN E d)).sum = 2 * Multiset.card E := by
  induction E using Multiset.induction_on with
  | empty => simp [degreeN]
  | cons p E ih =>
    have hclE : ∀ q ∈ E, q.1 ∈ nodes ∧ q.2 ∈ nodes :=
      fun q hq => hcl q (Multiset.mem_cons_of_mem hq)
    have hp := hcl p (Multiset.mem_cons_self p E)
    have hmap : nodes.map (fun d => degreeN (p ::ₘ E) d)
        = nodes.map (fun d => contribN d p + degreeN E d) :=
      List.map_congr_left (fun n _ => degreeN_cons p E n)
    rw [hmap, sum_map_add_split, ih hclE]
    have hcontrib : (nodes.map (fun d => contribN d p)).sum = 2 := by
      simp only [contribN]
      rw [sum_map_add_split nodes (fun d => if p.1 = d then 1 else 0)
        (fun d => if p.2 = d then 1 else 0)]
      rw [sum_map_ite nodes p.1 (fun _ => 1) hnd, sum_map_ite nodes p.2 (fun _ => 1) hnd,
        if_pos hp.1, if_pos hp.2]
    rw [hcontrib, Multiset.card_cons]
    ring

theorem sum_parity_filter (l : List ℕ) (f : ℕ → ℕ) (p : ℕ → Bool)
    (h : ∀ d ∈ l, f d % 2 = if p d then 1 else 0) :
    (l.map f).sum % 2 = (l.filter p).length % 2 := by
  induction l with
  | nil => rfl
  | cons a l ih =>
    have ha := h a (List.mem_cons_self a l)
    have ih2 := ih (fun d hd => h d (List.mem_cons_of_mem a hd))
    rw [List.map_cons, List.sum_cons, List.filter_cons]
    by_cases hp : p a = true
    · rw [if_pos hp] at ha
      rw [if_pos hp, List.length_cons]
      omega
    · rw [if_neg hp] at ha
      rw [if_neg hp]
      omega

theorem degPadded_range (g : NGraph) (D d : ℕ)
    (hdeg : degreeN g.edges d ≤ D * g.cv d) :
    (1 ≤ D * g.cv d ∧ degPadded g D d = D * g.cv d - 1)
      ∨ degPadded g D d = D * g.cv d := by
  have hge := padGo_ge ((tgtOf D (g.cv d) - (degreeN g.edges d : ℤ)).toNat)
    (degreeN g.edges d) (tgtOf D (g.cv d)) (le_refl _)
  have hdegz : ((degreeN g.edges d : ℕ) : ℤ) ≤ tgtOf D (g.cv d) + 1 := by
    rw [tgt_eq]
    omega
  have hle := padGo_le ((tgtOf D (g.cv d) - (degreeN g.edges d : ℤ)).toNat)
    (degreeN g.edges d) (tgtOf D (g.cv d)) hdegz
  rw [tgt_eq] at hge hle
  unfold degPadded padFor padCount
  rw [tgt_eq]
  omega

theorem degPadded_parity (g : NGraph) (D d : ℕ)
    (hdeg : degreeN g.edges d ≤ D * g.cv d) (hcv2 : g.cv d % 2 = 0) :
    degPadded g D d % 2
      = if (degPadded g D d : ℤ) = tgtOf D (g.cv d) then 1 else 0 := by
  have hr := degPadded_range g D d hdeg
  have hPev : (D * g.cv d) % 2 = 0 := by
    rw [Nat.mul_mod, hcv2]
    simp
  rw [tgt_eq]
  by_cases hsp : (degPadded g D d : ℤ) = ((D * g.cv d : ℕ) : ℤ) - 1
  · rw [if_pos hsp]
    rcases hr with ⟨h1, h2⟩ | h2 <;> omega
  · rw [if_neg hsp]
    rcases hr with ⟨h1, h2⟩ | h2 <;> omega

theorem mem_sparesOf (g : NGraph) (D d : ℕ) :
    d ∈ sparesOf g D ↔ d ∈ g.nodes ∧ (degPadded g D d : ℤ) = tgtOf D (g.cv d) := by
  unfold sparesOf
  rw [List.mem_filter]
  simp

theorem mem_listSum (L : List (Multiset (ℕ × ℕ))) (x : ℕ × ℕ) (hx : x ∈ L.sum) :
    ∃ m ∈ L, x ∈ m := by
  induction L with
  | nil => simp at hx
  | cons m L ih =>
    rw [List.sum_cons, Multiset.mem_add] at hx
    rcases hx with h | h
    · exact ⟨m, List.mem_cons_self m L, h⟩
    · obtain ⟨m2, hm2, hxm⟩ := ih h
      exact ⟨m2, List.mem_cons_of_mem m hm2, hxm⟩

theorem mem_loopsAdded (g : NGraph) (D : ℕ) (p : ℕ × ℕ)
    (hp : p ∈ loopsAdded g D) : p.1 ∈ g.nodes ∧ p.2 ∈ g.nodes := by
  unfold loopsAdded at hp
  obtain ⟨m, hm, hpm⟩ := mem_listSum _ _ hp
  obtain ⟨n, hn, rfl⟩ := List.mem_map.mp hm
  have := Multiset.eq_of_mem_replicate hpm
  subst this
  exact ⟨hn, hn⟩

theorem spares_length_even (g : NGraph) (hnd : g.nodes.Nodup)
    (hcl : ∀ p ∈ g.edges, p.1 ∈ g.nodes ∧ p.2 ∈ g.nodes)
    (hcv : ∀ d ∈ g.nodes, 0 < g.cv d ∧ g.cv d % 2 = 0) :
    (sparesOf g (maxD g)).length % 2 = 0 := by
  have hclP : ∀ p ∈ g.edges + loopsAdded g (maxD g),
      p.1 ∈ g.nodes ∧ p.2 ∈ g.nodes := by
    intro p hp
    rcases Multiset.mem_add.mp hp with h | h
    · exact hcl p h
    · exact mem_loopsAdded g (maxD g) p h
  have hhs := handshakeN g.nodes (g.edges + loopsAdded g (maxD g)) hnd hclP
  have hmap : g.nodes.map (fun d => degreeN (g.edges + loopsAdded g (maxD g)) d)
      = g.nodes.map (fun d => degPadded g (maxD g) d) :=
    List.map_congr_left (fun n hn => degPadded_eq g (maxD g) n hnd hn)
  rw [hmap] at hhs
  have hpar := sum_parity_filter g.nodes (fun d => degPadded g (maxD g) d)
    (fun d => decide ((degPadded g (maxD g) d : ℤ) = tgtOf (maxD g) (g.cv d)))
    (fun d hd => by
      rw [degPadded_parity g (maxD g) d
        (degree_le_maxD g d hd (hcv d hd).1) (hcv d hd).2]
      by_cases h : (degPadded g (maxD g) d : ℤ) = tgtOf (maxD g) (g.cv d) <;>
        simp [h])
  unfold sparesOf
  omega

theorem pairUp_spec (n : ℕ) : ∀ (l : List ℕ), l.length ≤ n → l.Nodup →
    l.length % 2 = 0 →
    ∃ ps, pairUp l = some ps
      ∧ ∀ d, degreeN (↑ps : Multiset (ℕ × ℕ)) d = if d ∈ l then 1 else 0 := by
  induction n with
  | zero =>
    intro l hlen hnd hev
    have hl : l = [] := List.eq_nil_of_length_eq_zero (by omega)
    subst hl
    exact ⟨[], rfl, fun d => by simp [degreeN]⟩
  | succ n ih =>
    intro l hlen hnd hev
    cases l with
    | nil => exact ⟨[], rfl, fun d => by simp [degreeN]⟩
    | cons a t =>
      cases t with
      | nil => simp at hev
      | cons b rest =>
        have hlen2 : rest.length ≤ n := by
          simp only [List.length_cons] at hlen
          omega
        have hnda := List.nodup_cons.mp hnd
        have hndb := List.nodup_cons.mp hnda.2
        have hab : a ≠ b := fun h => hnda.1 (h ▸ List.mem_cons_self b rest)
        have har : a ∉ rest := fun h => hnda.1 (List.mem_cons_of_mem b h)
        have hbr : b ∉ rest := hndb.1
        have hev2 : rest.length % 2 = 0 := by
          simp only [List.length_cons] at hev
          omega
        obtain ⟨ps, hps, hdeg⟩ := ih rest hlen2 hndb.2 hev2
        refine ⟨(a, b) :: ps, ?_, ?_⟩
        · show (pairUp rest).map (fun ps => (a, b) :: ps) = some ((a, b) :: ps)
          rw [hps]
          rfl
        · intro d
          have hcoe : (↑((a, b) :: ps) : Multiset (ℕ × ℕ))
              = (a, b) ::ₘ (↑ps : Multiset (ℕ × ℕ)) := rfl
          rw [hcoe, degreeN_cons, hdeg d]
          unfold contribN
          dsimp only
          by_cases hda : a = d
          · subst hda
            rw [if_pos rfl, if_neg (show ¬ (b = a) from fun h => hab h.symm),
              if_neg har, if_pos (List.mem_cons_self a (b :: rest))]
          · rw [if_neg hda]
            by_cases hdb : b = d
            · subst hdb
              rw [if_pos rfl, if_neg hbr,
                if_pos (List.mem_cons_of_mem a (List.mem_cons_self b rest))]
            · rw [if_neg hdb]
              by_cases hdm : d ∈ rest
              · rw [if_pos hdm, if_pos
                  (List.mem_cons_of_mem a (List.mem_cons_of_mem b hdm))]
              · rw [if_neg hdm, if_neg (by
                  intro hmem
                  rcases List.mem_cons.mp hmem with h | hmem2
                  · exact hda h.symm
                  · rcases List.mem_cons.mp hmem2 with h | h
                    · exact hdb h.symm
                    · exact hdm h)]

theorem AdjN_mono (E F : Multiset (ℕ × ℕ)) (hEF : ∀ p ∈ E, p ∈ F) (u v : ℕ)
    (h : AdjN E u v) : AdjN F u v := by
  rcases h with h | h
  · exact Or.inl (hEF _ h)
  · exact Or.inr (hEF _ h)

/-- C5.  On a demand graph with duplicate-free node list, edges between
listed nodes, and all capacities even and positive (the state guaranteed
by Bipartite's parity relaxation, assuming no capacity-1 device, see C10),
normalization succeeds: the spares pair off completely, every device ends
with degree exactly maxD·cv(d), that degree is even, and connectivity is
preserved — so a connected demand graph normalizes to a connected all-even
multigraph, the precondition for an Eulerian circuit. -/
theorem C5_normalize_even_degree (g : NGraph)
    (_hne : g.nodes ≠ []) (hnd : g.nodes.Nodup)
    (hcl : ∀ p ∈ g.edges, p.1 ∈ g.nodes ∧ p.2 ∈ g.nodes)
    (hcv : ∀ d ∈ g.nodes, 0 < g.cv d ∧ g.cv d % 2 = 0) :
    ∃ g', normalizeG g = some g'
      ∧ (∀ d ∈ g.nodes, degreeN g'.edges d = maxD g * g.cv d
          ∧ Even (degreeN g'.edges d))
      ∧ (ConnectedN g.nodes g.edges → ConnectedN g.nodes g'.edges) := by
  have hev := spares_length_even g hnd hcl hcv
  have hspnd : (sparesOf g (maxD g)).Nodup := hnd.filter _
  obtain ⟨ps, hps, hpdeg⟩ := pairUp_spec (sparesOf g (maxD g)).length
    (sparesOf g (maxD g)) (le_refl _) hspnd hev
  refine ⟨{ g with
      edges := g.edges + loopsAdded g (maxD g) + (↑ps : Multiset (ℕ × ℕ)) },
    ?_, ?_, ?_⟩
  · unfold normalizeG
    rw [hps]
    rfl
  · intro d hd
    have hdeg : degreeN (g.edges + loopsAdded g (maxD g)
        + (↑ps : Multiset (ℕ × ℕ))) d
        = degPadded g (maxD g) d + (if d ∈ sparesOf g (maxD g) then 1 else 0) := by
      rw [degreeN_add, degPadded_eq g (maxD g) d hnd hd, hpdeg d]
    have hrange := degPadded_range g (maxD g) d
      (degree_le_maxD g d hd (hcv d hd).1)
    have hspcond : d ∈ sparesOf g (maxD g) ↔
        (degPadded g (maxD g) d : ℤ) = tgtOf (maxD g) (g.cv d) :=
      (mem_sparesOf g (maxD g) d).trans (and_iff_right hd)
    have hval : degreeN (g.edges + loopsAdded g (maxD g)
        + (↑ps : Multiset (ℕ × ℕ))) d = maxD g * g.cv d := by
      rw [hdeg]
      by_cases hsp : d ∈ sparesOf g (maxD g)
      · rw [if_pos hsp]
        have hc := hspcond.mp hsp
        rw [tgt_eq] at hc
        rcases hrange with ⟨h1, h2⟩ | h2 <;> omega
      · rw [if_neg hsp]
        have hc : ¬ ((degPadded g (maxD g) d : ℤ)
            = ((maxD g * g.cv d : ℕ) : ℤ) - 1) := by
          intro h
          exact hsp (hspcond.mpr (by rw [tgt_eq]; exact h))
        rcases hrange with ⟨h1, h2⟩ | h2 <;> omega
    have hPev : (maxD g * g.cv d) % 2 = 0 := by
      rw [Nat.mul_mod, (hcv d hd).2]
      simp
    exact ⟨hval, hval ▸ Nat.even_iff.mpr hPev⟩
  · intro hconn u hu v hv
    refine Relation.ReflTransGen.mono ?_ (hconn u hu v hv)
    intro x y hxy
    refine AdjN_mono g.edges _ ?_ x y hxy
    intro p hp
    exact Multiset.mem_add.mpr (Or.inl (Multiset.mem_add.mpr (Or.inl hp)))

/-- C5 witnessed on a concrete connected graph with even capacities. -/
theorem C5_witness :
    ∃ g', normalizeG gNorm = some g'
      ∧ (∀ d ∈ gNorm.nodes, degreeN g'.edges d = maxD gNorm * gNorm.cv d
          ∧ Even (degreeN g'.edges d))
      ∧ (ConnectedN gNorm.nodes gNorm.edges → ConnectedN gNorm.nodes g'.edges) :=
  C5_normalize_even_degree gNorm (by decide) (by decide) (by decide) (by decide)

/-- C3 counterexample: Bipartite's very first selection call already
removes the demand self loop 0-0 from the demand graph, before any commit
runs; the edge is discarded by the loop-removal sweep, never by a commit,
and can never be committed afterwards, so under Bipartite an edge is not
removed exactly once at the moment a round's commit applies it and the
committed multiset cannot equal the original demand multiset. -/
theorem C3_counterexample_bipartite_select_mutates :
    (bipartiteSelectEffect gBip).map (fun h => edgeCountN h.edges 0 0) = some 0
      ∧ edgeCountN gBip.edges 0 0 = 1 := by
  constructor
  · decide
  · decide

theorem relaxCv_eq_zero_iff (c : ℕ) (hc : 1 ≤ c) : relaxCv c = 0 ↔ c = 1 := by
  unfold relaxCv
  by_cases h : c % 2 = 1
  · rw [if_pos h]
    omega
  · rw [if_neg h]
    omega

/-- C10.  Bipartite's first gen_edges call gets through its
normalized-max-degree computation exactly when no device has capacity 1:
parity relaxation decrements every odd capacity, sending capacity 1 to 0,
and ceil(degree/0) then raises ZeroDivisionError inside max_d; when every
capacity is at least 2 (equivalently, no capacity is 1) the relaxed
capacities stay positive and the error branch is unreachable. -/
theorem C10_relaxed_maxD_total (g : NGraph) (hne : g.nodes ≠ [])
    (hcv : ∀ d ∈ g.nodes, 1 ≤ g.cv d) :
    (bipartiteFirstMaxD g).isSome ↔ ∀ d ∈ g.nodes, g.cv d ≠ 1 := by
  unfold bipartiteFirstMaxD maxDOpt relaxG
  dsimp only
  rw [if_neg hne]
  by_cases hany : g.nodes.any (fun d => relaxCv (g.cv d) == 0) = true
  · rw [if_pos hany]
    obtain ⟨x, hx, hx0⟩ := List.any_eq_true.mp hany
    rw [beq_iff_eq] at hx0
    have hx1 : g.cv x = 1 := (relaxCv_eq_zero_iff (g.cv x) (hcv x hx)).mp hx0
    constructor
    · intro h
      exact absurd h (by decide)
    · intro h
      exact absurd hx1 (h x hx)
  · rw [if_neg hany]
    simp only [Option.isSome_some]
    constructor
    · intro _ d hd hd1
      apply hany
      refine List.any_eq_true.mpr ⟨d, hd, ?_⟩
      rw [beq_iff_eq]
      exact (relaxCv_eq_zero_iff (g.cv d) (hcv d hd)).mpr hd1
    · intro _
      trivial

/-- C10 witnessed: with both capacities 2, the relaxed max_d computation
is total, matching the absence of any capacity-1 device. -/
theorem C10_witness :
    (bipartiteFirstMaxD gNorm).isSome ↔ ∀ d ∈ gNorm.nodes, gNorm.cv d ≠ 1 :=
  C10_relaxed_maxD_total gNorm (by decide) (by decide)

/-- C6.  No pair Bipartite's gen_edges returns resolves both endpoints to
the same original device, whatever the round's flow extraction produced:
the final filter discards every pair with coinciding orgs, in particular
every self loop surviving from normalization. -/
theorem C6_no_self_transfer (flow : List GEdge) (p : ℕ × ℕ)
    (hp : p ∈ bipartiteQueue flow) : p.1 ≠ p.2 := by
  unfold bipartiteQueue at hp
  obtain ⟨e, he, rfl⟩ := List.mem_map.mp hp
  have hf := List.of_mem_filter he
  simpa using hf

/-- C6 witnessed on a one-edge flow between a disk and an alias of a
different disk. -/
theorem C6_witness :
    ((0, 1) : ℕ × ℕ) ∈ bipartiteQueue [(GNode.disk 0, GNode.al 0 (GNode.disk 1))]
      ∧ (0 : ℕ) ≠ 1 :=
  ⟨by decide,
    C6_no_self_transfer [(GNode.disk 0, GNode.al 0 (GNode.disk 1))] (0, 1) (by decide)⟩

/-- C8 failing input: on the triangle, greedy_color keys the tuples
(1, 0) and (2, 0) — two distinct undirected edges both incident to
node 0 — with the same color 0, because the color counter restarts at
every node and the incident colors are never consulted; a proper edge
coloring as the contract demands would have to give them different
colors. -/
theorem C8_greedy_color_conflict :
    ((GNode.disk 1, GNode.disk 0), 0) ∈ greedyColor triK3nodes triK3edges
      ∧ ((GNode.disk 2, GNode.disk 0), 0) ∈ greedyColor triK3nodes triK3edges := by
  constructor
  · decide
  · decide

/-- C9.  EdgeRanking returns exactly the snapshot's edges, reordered so
that the scores w(u) + w(v), with w(d) = ceil(degree(d)/cv(d)) computed on
the snapshot, are ascending along the returned list.  The capacity
hypothesis records that Python would raise on a zero capacity. -/
theorem C9_edge_ranking_sorted (g : RGraph) (hcv : ∀ d, 0 < g.cv d) :
    (genEdgesER g).Perm g.edgeList
      ∧ (genEdgesER g).Pairwise (fun e1 e2 =>
          dvCvR g e1.1 + dvCvR g e1.2 ≤ dvCvR g e2.1 + dvCvR g e2.2) := by
  have _ := hcv
  have hperm1 : ((g.edgeList.map (fun e => (dvCvR g e.1 + dvCvR g e.2, e))).mergeSort
      (fun x y => decide (x.1 ≤ y.1))).Perm
      (g.edgeList.map (fun e => (dvCvR g e.1 + dvCvR g e.2, e))) :=
    List.mergeSort_perm _ _
  constructor
  · have h2 := hperm1.map Prod.snd
    unfold genEdgesER
    refine h2.trans ?_
    rw [List.map_map]
    have : (Prod.snd ∘ fun e : ℕ × ℕ => (dvCvR g e.1 + dvCvR g e.2, e)) = id := by
      funext e
      rfl
    rw [this, List.map_id]
  · have hsorted := @List.sorted_mergeSort (ℕ × (ℕ × ℕ))
      (fun x y => decide (x.1 ≤ y.1))
      (fun a b c hab hbc => by
        simp only [decide_eq_true_eq] at hab hbc ⊢
        omega)
      (fun a b => by
        by_cases h : a.1 ≤ b.1
        · simp [h]
        · simp [h]
          omega)
      (g.edgeList.map (fun e => (dvCvR g e.1 + dvCvR g e.2, e)))
    have hinv : ∀ x ∈ (g.edgeList.map (fun e => (dvCvR g e.1 + dvCvR g e.2, e))).mergeSort
        (fun x y => decide (x.1 ≤ y.1)),
        x.1 = dvCvR g x.2.1 + dvCvR g x.2.2 := by
      intro x hx
      have hx2 := hperm1.mem_iff.mp hx
      obtain ⟨e, _, rfl⟩ := List.mem_map.mp hx2
      rfl
    have hpair : ((g.edgeList.map (fun e => (dvCvR g e.1 + dvCvR g e.2, e))).mergeSort
        (fun x y => decide (x.1 ≤ y.1))).Pairwise
        (fun x y => dvCvR g x.2.1 + dvCvR g x.2.2 ≤ dvCvR g y.2.1 + dvCvR g y.2.2) := by
      refine List.Pairwise.imp_of_mem ?_ hsorted
      intro a b ha hb hr
      have h1 := hinv a ha
      have h2 := hinv b hb
      simp only [decide_eq_true_eq] at hr
      omega
    unfold genEdgesER
    exact hpair.map _ (fun a b h => h)

/-- C9 witnessed on the path graph. -/
theorem C9_witness :
    (genEdgesER gER).Perm gER.edgeList
      ∧ (genEdgesER gER).Pairwise (fun e1 e2 =>
          dvCvR gER e1.1 + dvCvR gER e1.2 ≤ dvCvR gER e2.1 + dvCvR gER e2.2) :=
  C9_edge_ranking_sorted gER (fun _ => Nat.one_pos)

theorem mem_firstDedupGo (x : GEdge) : ∀ (l seen : List GEdge),
    x ∈ firstDedupGo seen l → x ∉ seen ∧ x ∈ l := by
  intro l
  induction l with
  | nil => intro seen h; cases h
  | cons e rest ih =>
    intro seen h
    unfold firstDedupGo at h
    by_cases he : e ∈ seen
    · rw [if_pos he] at h
      obtain ⟨h1, h2⟩ := ih seen h
      exact ⟨h1, List.mem_cons_of_mem e h2⟩
    · rw [if_neg he] at h
      rcases List.mem_cons.mp h with h | h
      · subst h
        exact ⟨he, List.mem_cons_self x rest⟩
      · obtain ⟨h1, h2⟩ := ih (e :: seen) h
        exact ⟨fun hx => h1 (List.mem_cons_of_mem e hx), List.mem_cons_of_mem e h2⟩

theorem mem_firstDedupGo_of (x : GEdge) : ∀ (l seen : List GEdge),
    x ∈ l → x ∉ seen → x ∈ firstDedupGo seen l := by
  intro l
  induction l with
  | nil => intro seen h; cases h
  | cons e rest ih =>
    intro seen hx hxs
    unfold firstDedupGo
    by_cases he : e ∈ seen
    · rw [if_pos he]
      rcases List.mem_cons.mp hx with h | h
      · exact absurd (h ▸ he) hxs
      · exact ih seen h hxs
    · rw [if_neg he]
      rcases List.mem_cons.mp hx with h | h
      · exact h ▸ List.mem_cons_self e _
      · by_cases hxe : x = e
        · exact hxe ▸ List.mem_cons_self e _
        · refine List.mem_cons_of_mem e (ih (e :: seen) h ?_)
          intro hmem
          rcases List.mem_cons.mp hmem with h2 | h2
          · exact hxe h2
          · exact hxs h2

theorem nodup_firstDedupGo : ∀ (l seen : List GEdge),
    (firstDedupGo seen l).Nodup := by
  intro l
  induction l with
  | nil => intro seen; exact List.nodup_nil
  | cons e rest ih =>
    intro seen
    unfold firstDedupGo
    by_cases he : e ∈ seen
    · rw [if_pos he]
      exact ih seen
    · rw [if_neg he]
      refine List.nodup_cons.mpr ⟨?_, ih (e :: seen)⟩
      intro hmem
      exact (mem_firstDedupGo e rest (e :: seen) hmem).1 (List.mem_cons_self e seen)

theorem countP_split_seen (e : GEdge) : ∀ (rest seen : List GEdge),
    e ∉ seen →
    rest.countP (fun x => decide (x ∉ seen))
      = rest.count e + rest.countP (fun x => decide (x ∉ (e :: seen))) := by
  intro rest
  induction rest with
  | nil => intro seen he; rfl
  | cons x rest ih =>
    intro seen he
    rw [List.countP_cons, List.countP_cons, List.count_cons, ih seen he]
    by_cases hxe : x = e <;> by_cases hxs : x ∈ seen <;>
      simp [hxe, hxs, List.mem_cons, he] <;> omega

theorem firstDedupGo_counts : ∀ (L seen : List GEdge),
    ((firstDedupGo seen L).map (fun x => L.count x)).sum
      = L.countP (fun x => decide (x ∉ seen)) := by
  intro L
  induction L with
  | nil => intro seen; rfl
  | cons e rest ih =>
    intro seen
    rw [List.countP_cons]
    unfold firstDedupGo
    by_cases he : e ∈ seen
    · rw [if_pos he]
      have hmap : (firstDedupGo seen rest).map (fun x => (e :: rest).count x)
          = (firstDedupGo seen rest).map (fun x => rest.count x) := by
        apply List.map_congr_left
        intro x hx
        have hxs := (mem_firstDedupGo x rest seen hx).1
        have hxe : ¬ (e == x) = true := by
          simp only [beq_iff_eq]
          intro h
          exact hxs (h ▸ he)
        rw [List.count_cons, if_neg hxe]
        omega
      rw [hmap, ih seen, if_neg (by simpa using he)]
      omega
    · rw [if_neg he, List.map_cons, List.sum_cons]
      have hmap : (firstDedupGo (e :: seen) rest).map (fun x => (e :: rest).count x)
          = (firstDedupGo (e :: seen) rest).map (fun x => rest.count x) := by
        apply List.map_congr_left
        intro x hx
        have hxs := (mem_firstDedupGo x rest (e :: seen) hx).1
        have hxe : ¬ (e == x) = true := by
          simp only [beq_iff_eq]
          intro h
          exact hxs (List.mem_cons.mpr (Or.inl h.symm))
        rw [List.count_cons, if_neg hxe]
        omega
      rw [hmap, ih (e :: seen), if_pos (by simpa using he)]
      rw [List.count_cons, if_pos (by simp), countP_split_seen e rest seen he]
      omega

theorem splitClass_length (c : ℕ) (u v : GNode) (n : ℕ) :
    (splitClass c u v n).length = n - 1 := by
  unfold splitClass
  rw [List.length_map, List.length_range]

theorem mgSplitGo_card : ∀ (classes : List (GEdge × ℕ)) (c : ℕ),
    (∀ en ∈ classes, 1 ≤ en.2) →
    Multiset.card (mgSplitGo c classes) = (classes.map Prod.snd).sum := by
  intro classes
  induction classes with
  | nil => intro c h; rfl
  | cons en rest ih =>
    intro c h
    obtain ⟨⟨u, v⟩, n⟩ := en
    show Multiset.card (((u, v) ::ₘ (↑(splitClass c u v n) : Multiset GEdge))
      + mgSplitGo (c + (n - 1)) rest) = _
    rw [Multiset.card_add, Multiset.card_cons, Multiset.coe_card, splitClass_length,
      ih (c + (n - 1)) (fun x hx => h x (List.mem_cons_of_mem _ hx))]
    have hn := h ((u, v), n) (List.mem_cons_self _ _)
    rw [List.map_cons, List.sum_cons]
    simp only at hn
    omega

theorem count_splitClass_disk (c : ℕ) (u v : GNode) (n : ℕ) (a : ℕ) (w : GNode) :
    (↑(splitClass c u v n) : Multiset GEdge).count (GNode.disk a, w) = 0 := by
  rw [Multiset.count_eq_zero]
  intro hmem
  rw [Multiset.mem_coe] at hmem
  unfold splitClass at hmem
  obtain ⟨i, _, hi⟩ := List.mem_map.mp hmem
  cases hi

theorem decide_eq_true_bool (b : Bool) : decide (b = true) = b := by
  cases b <;> simp

theorem countP_splitClass_fan (c : ℕ) (u0 v0 u v : GNode) (n : ℕ) :
    Multiset.countP (fun p => isFanEdge u v p = true)
        (↑(splitClass c u0 v0 n) : Multiset GEdge)
      = if u0 = u ∧ v0 = v then n - 1 else 0 := by
  rw [Multiset.coe_countP]
  unfold splitClass
  rw [List.countP_map]
  have hval : ∀ i : ℕ,
      ((fun b => decide (isFanEdge u v b = true)) ∘
        (fun i => (GNode.al (c + i) u0, v0))) i
      = ((u0 == u) && (v0 == v)) := by
    intro i
    show decide (isFanEdge u v (GNode.al (c + i) u0, v0) = true) = _
    have hred : isFanEdge u v (GNode.al (c + i) u0, v0)
        = ((u0 == u) && (v0 == v)) := rfl
    rw [hred, decide_eq_true_bool]
  by_cases h : u0 = u ∧ v0 = v
  · rw [if_pos h]
    have hb : ((u0 == u) && (v0 == v)) = true := by
      simp [h.1, h.2]
    rw [List.countP_eq_length.mpr (fun i _ => by rw [hval i, hb]), List.length_range]
  · rw [if_neg h]
    have hb : ((u0 == u) && (v0 == v)) = false := by
      rcases not_and_or.mp h with h1 | h1
      · simp [h1]
      · by_cases h2 : u0 = u
        · simp [h2, h1]
        · simp [h2]
    rw [List.countP_eq_zero.mpr (fun i _ => by rw [hval i, hb]; exact Bool.false_ne_true)]

theorem splitClass_nodup (c : ℕ) (u v : GNode) (n : ℕ) :
    (splitClass c u v n).Nodup := by
  unfold splitClass
  refine List.Nodup.map ?_ (List.nodup_range _)
  intro i j hij
  injection hij with h1 _
  injection h1 with hs _
  omega

theorem filter_splitClass_all (c : ℕ) (u v : GNode) (n : ℕ) :
    ((↑(splitClass c u v n) : Multiset GEdge).filter
        (fun p => isFanEdge u v p = true))
      = ↑(splitClass c u v n) := by
  rw [Multiset.filter_eq_self]
  intro p hp
  rw [Multiset.mem_coe] at hp
  unfold splitClass at hp
  obtain ⟨i, _, rfl⟩ := List.mem_map.mp hp
  show ((u == u) && (v == v)) = true
  simp

theorem filter_splitClass_none (c : ℕ) (u0 v0 u v : GNode) (n : ℕ)
    (h : ¬ (u0 = u ∧ v0 = v)) :
    ((↑(splitClass c u0 v0 n) : Multiset GEdge).filter
        (fun p => isFanEdge u v p = true))
      = 0 := by
  rw [Multiset.filter_eq_nil]
  intro p hp
  rw [Multiset.mem_coe] at hp
  unfold splitClass at hp
  obtain ⟨i, _, rfl⟩ := List.mem_map.mp hp
  show ¬ ((u0 == u) && (v0 == v)) = true
  simp only [Bool.and_eq_true, beq_iff_eq]
  exact fun hh => h hh

theorem mgSplitGo_keyed (u v : GNode) (a : ℕ) (hu : u = GNode.disk a)
    (cnt : GEdge → ℕ) :
    ∀ (keys : List GEdge) (c : ℕ),
      (∀ e ∈ keys, ∃ x, (Prod.fst e) = GNode.disk x) →
      keys.Nodup →
      ((mgSplitGo c (keys.map (fun e => (e, cnt e)))).count (u, v)
          = keys.count (u, v))
        ∧ (Multiset.countP (fun p => isFanEdge u v p = true)
              (mgSplitGo c (keys.map (fun e => (e, cnt e))))
            = if (u, v) ∈ keys then cnt (u, v) - 1 else 0)
        ∧ ((mgSplitGo c (keys.map (fun e => (e, cnt e)))).filter
              (fun p => isFanEdge u v p = true)).Nodup := by
  intro keys
  induction keys with
  | nil =>
    intro c _ _
    refine ⟨rfl, by simp [mgSplitGo], by simp [mgSplitGo]⟩
  | cons e keys ih =>
    intro c hdisk hnd
    obtain ⟨e1, e2⟩ := e
    have hndc := List.nodup_cons.mp hnd
    obtain ⟨hcnt, hfan, hnodup⟩ := ih (c + (cnt (e1, e2) - 1))
      (fun x hx => hdisk x (List.mem_cons_of_mem _ hx)) hndc.2
    have hshape : mgSplitGo c (((e1, e2) :: keys).map (fun e => (e, cnt e)))
        = ((e1, e2) ::ₘ (↑(splitClass c e1 e2 (cnt (e1, e2))) : Multiset GEdge))
          + mgSplitGo (c + (cnt (e1, e2) - 1)) (keys.map (fun e => (e, cnt e))) := rfl
    obtain ⟨x1, hx1⟩ := hdisk (e1, e2) (List.mem_cons_self _ _)
    have hbase : isFanEdge u v (e1, e2) = false := by
      rw [show e1 = GNode.disk x1 from hx1]
      rfl
    refine ⟨?_, ?_, ?_⟩
    · rw [hshape, Multiset.count_add, Multiset.count_cons, hcnt]
      have hfz : (↑(splitClass c e1 e2 (cnt (e1, e2))) : Multiset GEdge).count (u, v)
          = 0 := by
        rw [hu]
        exact count_splitClass_disk c e1 e2 (cnt (e1, e2)) a v
      rw [hfz, List.count_cons]
      by_cases heq : (u, v) = (e1, e2)
      · rw [if_pos heq, if_pos (by simp only [beq_iff_eq]; exact heq.symm)]
        omega
      · rw [if_neg heq,
          if_neg (by simp only [beq_iff_eq]; exact fun h => heq h.symm)]
        omega
    · rw [hshape, Multiset.countP_add, Multiset.countP_cons, hfan,
        countP_splitClass_fan, hbase]
      by_cases hkey : (e1, e2) = (u, v)
      · have h1 : e1 = u := by injection hkey
        have h2 : e2 = v := by
          injection hkey with ha hb
        have hmemk : (u, v) ∉ keys := hkey ▸ hndc.1
        rw [if_pos ⟨h1, h2⟩, if_neg hmemk,
          if_pos (List.mem_cons.mpr (Or.inl hkey.symm)), hkey]
        simp
      · have h12 : ¬ (e1 = u ∧ e2 = v) := fun hh => hkey (by rw [hh.1, hh.2])
        rw [if_neg h12]
        have hmc : ((u, v) ∈ (e1, e2) :: keys) ↔ (u, v) ∈ keys := by
          rw [List.mem_cons]
          constructor
          · rintro (h | h)
            · exact absurd h.symm hkey
            · exact h
          · exact Or.inr
        rw [if_congr hmc rfl rfl]
        by_cases hm : (u, v) ∈ keys
        · rw [if_pos hm]
          simp
        · rw [if_neg hm]
          simp
    · rw [hshape, Multiset.filter_add, Multiset.filter_cons,
        if_neg (by simp [hbase])]
      by_cases hkey : (e1, e2) = (u, v)
      · have h1 : e1 = u := by injection hkey
        have h2 : e2 = v := by
          injection hkey with ha hb
        have hmemk : (u, v) ∉ keys := hkey ▸ hndc.1
        have hrest0 : (mgSplitGo (c + (cnt (e1, e2) - 1))
            (keys.map (fun e => (e, cnt e)))).filter
              (fun p => isFanEdge u v p = true) = 0 := by
          rw [Multiset.filter_eq_nil]
          intro p hp hfp
          have hpos : 0 < Multiset.countP (fun p => isFanEdge u v p = true)
              (mgSplitGo (c + (cnt (e1, e2) - 1)) (keys.map (fun e => (e, cnt e)))) :=
            Multiset.countP_pos.mpr ⟨p, hp, hfp⟩
          rw [hfan, if_neg hmemk] at hpos
          exact absurd hpos (lt_irrefl 0)
        rw [hrest0, h1, h2, filter_splitClass_all]
        simpa using Multiset.coe_nodup.mpr (splitClass_nodup c u v (cnt (u, v)))
      · have h12 : ¬ (e1 = u ∧ e2 = v) := fun hh => hkey (by rw [hh.1, hh.2])
        rw [filter_splitClass_none c e1 e2 u v (cnt (e1, e2)) h12]
        simpa using hnodup

theorem count_eq_one_nodup (l : List GEdge) (x : GEdge) (hnd : l.Nodup)
    (hx : x ∈ l) : l.count x = 1 := by
  induction l with
  | nil => cases hx
  | cons a l ih =>
    have hndc := List.nodup_cons.mp hnd
    rw [List.count_cons]
    rcases List.mem_cons.mp hx with h | h
    · subst h
      rw [if_pos (by simp)]
      have hz : l.count x = 0 := List.count_eq_zero.mpr hndc.1
      rw [hz]
    · rw [ih hndc.2 h, if_neg (by
        simp only [beq_iff_eq]
        intro hax
        exact hndc.1 (hax ▸ h))]

/-- C7 counterexample: on two parallel edges between disks 0 and 1,
mg_split leaves one copy of the original edge in place and creates only
one fresh-alias edge, so the two parallel edges are not rewritten into two
simple edges between two fresh Aliases as the claim states (that would
leave no copy of the original pair and two fan edges). -/
theorem C7_counterexample_original_edge_remains :
    (mgSplit LPar).count (GNode.disk 0, GNode.disk 1) = 1
      ∧ Multiset.countP
          (fun p => isFanEdge (GNode.disk 0) (GNode.disk 1) p = true)
          (mgSplit LPar) = 1 := by
  constructor
  · decide
  · decide

/-- C7 amended: for every reported edge list over original disks and every
pair (u, v) of multiplicity k at least 2, mg_split keeps exactly one copy
of the original edge (u, v) and adds exactly k − 1 pairwise distinct edges
joining fresh Aliases of u to v; the total number of demand edges is
preserved. -/
theorem C7_amended_mg_split (L : List GEdge)
    (hdisk : ∀ p ∈ L, ∃ x, (Prod.fst p) = GNode.disk x) :
    Multiset.card (mgSplit L) = L.length
      ∧ ∀ u v : GNode, 2 ≤ L.count (u, v) →
          (mgSplit L).count (u, v) = 1
            ∧ Multiset.countP (fun p => isFanEdge u v p = true) (mgSplit L)
                = L.count (u, v) - 1
            ∧ ((mgSplit L).filter (fun p => isFanEdge u v p = true)).Nodup := by
  have hkeysnd : (firstDedupGo [] L).Nodup := nodup_firstDedupGo L []
  have hkeysdisk : ∀ e ∈ firstDedupGo [] L, ∃ x, (Prod.fst e) = GNode.disk x :=
    fun e he => hdisk e (mem_firstDedupGo e L [] he).2
  constructor
  · show Multiset.card (mgSplitGo 0 (occList L)) = L.length
    rw [mgSplitGo_card (occList L) 0 ?hpos]
    case hpos =>
      intro en hen
      unfold occList at hen
      obtain ⟨e, he, rfl⟩ := List.mem_map.mp hen
      have hmem := (mem_firstDedupGo e L [] he).2
      show 1 ≤ L.count e
      exact List.count_pos_iff.mpr hmem
    unfold occList
    rw [List.map_map]
    have hcomp : (Prod.snd ∘ fun e : GEdge => (e, L.count e))
        = fun e => L.count e := rfl
    rw [hcomp, firstDedupGo_counts L []]
    apply List.countP_eq_length.mpr
    intro x _
    simp
  · intro u v hk
    have hmemL : (u, v) ∈ L := List.count_pos_iff.mp (by omega)
    obtain ⟨a, ha⟩ := hdisk (u, v) hmemL
    have hmemk : (u, v) ∈ firstDedupGo [] L :=
      mem_firstDedupGo_of (u, v) L [] hmemL (by simp)
    obtain ⟨hc, hf, hn⟩ := mgSplitGo_keyed u v a ha (fun e => L.count e)
      (firstDedupGo [] L) 0 hkeysdisk hkeysnd
    refine ⟨?_, ?_, hn⟩
    · show (mgSplitGo 0 (occList L)).count (u, v) = 1
      rw [show occList L = (firstDedupGo [] L).map (fun e => (e, L.count e)) from rfl,
        hc]
      exact count_eq_one_nodup (firstDedupGo [] L) (u, v) hkeysnd hmemk
    · show Multiset.countP (fun p => isFanEdge u v p = true)
          (mgSplitGo 0 (occList L)) = L.count (u, v) - 1
      rw [show occList L = (firstDedupGo [] L).map (fun e => (e, L.count e)) from rfl,
        hf, if_pos hmemk]

/-- C7 amended, witnessed on a concrete disk edge list. -/
theorem C7_amended_witness :
    Multiset.card (mgSplit LW7) = LW7.length
      ∧ ∀ u v : GNode, 2 ≤ LW7.count (u, v) →
          (mgSplit LW7).count (u, v) = 1
            ∧ Multiset.countP (fun p => isFanEdge u v p = true) (mgSplit LW7)
                = LW7.count (u, v) - 1
            ∧ ((mgSplit LW7).filter (fun p => isFanEdge u v p = true)).Nodup :=
  C7_amended_mg_split LW7 (by
    intro p hp
    simp only [LW7, List.mem_cons, List.not_mem_nil, or_false] at hp
    rcases hp with rfl | rfl | rfl
    · exact ⟨0, rfl⟩
    · exact ⟨0, rfl⟩
    · exact ⟨1, rfl⟩)
